import Mathlib

/-!
Verification of the text-substitution engine in
`realm-core/src/realm/util/substitute.hpp`.

The development shallowly embeds the engine: the parser (`Substituter::parse`,
modelled by `parseLoopF` / `Substituter.parse`), the compiled template
(`Substituter::Template`, modelled by `Template`), variable definition
(`Substituter::define` and the three `ProtoDef::operator=` binding forms), and
the expansion interpreter (`Template::expand`, modelled by `stepSubst`,
`expandGo`, `Template.expandStream` and `Template.expandString`).

Modelling conventions:
* Template text is a `List Char`; byte offsets of `std::string_view` become
  list indices.
* An `std::ostream` becomes a `StreamState`: the characters written so far,
  the formatting flags (`std::ios_base::fmtflags`, an opaque bit mask) and the
  installed locale.  Writing characters never fails in the model; a sink
  failure thrown from inside a bound evaluator is modelled by the evaluator
  returning `some err`.
* A bound evaluator (`std::function<void(std::ostream&, A&...)>`) becomes a
  function of the ambient memory (`Heap`, through which a captured pointer is
  dereferenced at call time), the tuple of context instances (an abstract type
  `Ctx`, standing for the parameter pack `A...`), and the stream state.
* The `for (;;)` scan of `parse` is expressed with a fuel argument
  (`parseLoopF`); every iteration advances the scan position by at least two,
  so `text.length + 1` units of fuel always suffice, and `Substituter.parse`
  supplies exactly that.
* The compile-time owner-type resolution (`FindArg1` / `FindArg2`) is modelled
  at the value level: context types become `TypeName` codes and
  `std::is_convertible` becomes a boolean predicate.
-/

namespace Realm

/-- Output formatting flags of a stream (`std::ios_base::fmtflags`), an opaque
bit mask modelled as a natural number. -/
abbrev Flags := Nat

/-- A stream locale (`std::locale`), identified by a numeric code. -/
abbrev Locale := Nat

/-- The classic "C" locale, `std::locale::classic()`. -/
def classicLocale : Locale := 0

/-- The formatting flags of a freshly constructed `std::ostringstream`. -/
def defaultFlags : Flags := 0

/-- A write failure raised by the output sink (`std::ios_base::failure`),
identified by a numeric code. -/
abbrev Err := Nat

/-- Ambient mutable memory: the integer object stored at each address.  A
pointer captured by a value binding (`ProtoDef::operator=(T*)`) is an address
into this heap, dereferenced at expansion time. -/
abbrev Heap := Nat → Int

/-- State of an output stream (`std::ostream`): the characters written so far,
the formatting flags, and the installed locale. -/
structure StreamState where
  out : List Char
  flags : Flags
  loc : Locale

/-- Append characters to the stream.  Plain character output changes neither
the formatting flags nor the locale. -/
def writeChars (s : StreamState) (w : List Char) : StreamState :=
  { s with out := s.out ++ w }

/-- Install a locale on the stream (`std::ostream::imbue`). -/
def imbue (s : StreamState) (loc : Locale) : StreamState :=
  { s with loc := loc }

/-- Decimal digits of an integer, the classic-locale rendering of
`operator<<(std::ostream&, int)`. -/
def intChars (n : Int) : List Char := (toString n).toList

/-- Insert a thousands separator after every third digit, walking the reversed
digit list.  Stand-in for locale-specific numeric punctuation. -/
def groupRev : List Char → Nat → List Char
  | [], _ => []
  | c :: cs, k =>
    if (k + 1) % 3 == 0 && !cs.isEmpty then c :: ',' :: groupRev cs (k + 1)
    else c :: groupRev cs (k + 1)

/-- Rendering of an integer under a non-classic locale: digits with
locale-specific grouping. -/
def localizedInt (n : Int) : List Char :=
  if n < 0 then '-' :: (groupRev (intChars (-n)).reverse 0).reverse
  else (groupRev (intChars n).reverse 0).reverse

/-- Stream insertion of an integer consults the stream's locale (its `num_put`
facet): the classic locale yields plain decimal digits, any other locale a
locale-specific punctuated form. -/
def intToChars (loc : Locale) (n : Int) : List Char :=
  if loc = classicLocale then intChars n else localizedInt n

/-- A bound evaluator, `std::function<void(std::ostream&, A&...)>`: it may
read the ambient heap (through captured pointers), read the context instances
`Ctx` (standing for `A...`), write to the stream and mutate its formatting
state, and may propagate a sink failure (`some err`). -/
abbrev Evaluator (Ctx : Type) := Heap → Ctx → StreamState → StreamState × Option Err

/-- The variable table `m_variables`: a map from variable name to evaluator,
modelled as an association list with unique keys. -/
abbrev Variables (Ctx : Type) := List (List Char × Evaluator Ctx)

/-- Lookup of `m_variables.find(name)`, returning the stored map entry
(the `value_type` pair) as `Substituter::parse` does with `&*k`. -/
def lookupEntry {Ctx : Type} (vars : Variables Ctx) (name : List Char) :
    Option (List Char × Evaluator Ctx) :=
  vars.find? (fun p => p.1 == name)

/-- A parsed substitution, `Substituter<A...>::Substitution`: the byte span
`[beginOff, endOff)` of the reference in the original text, and `var_def`, the
referenced variable-table entry (`none` for the `@@` self-escape).  The C++
fields are named `begin` and `end`; `end` is reserved in Lean, hence the
`Off` suffix on both. -/
structure Substitution (Ctx : Type) where
  beginOff : Nat
  endOff : Nat
  var_def : Option (List Char × Evaluator Ctx)

/-- A compiled template, `Substituter<A...>::Template`: the view of the
original text plus the ordered substitutions. -/
structure Template (Ctx : Type) where
  m_text : List Char
  m_substitutions : List (Substitution Ctx)

/-- A diagnostic logged during parsing.  The C++ messages are
"Unterminated `@` at end of text", "Unterminated `@{`" and
"Undefined variable `name` in substitution `excerpt`"; the model records the
offending scan position (for the first two) or the variable name together
with the excerpt's span `[beginOff, endOff)` (for the third; the C++ excerpt
is exactly `text.substr(beginOff, endOff - beginOff)`). -/
inductive Diag where
  | unterminatedMarker (pos : Nat)
  | unterminatedBrace (pos : Nat)
  | undefinedVariable (name : List Char) (beginOff endOff : Nat)
deriving DecidableEq

/-- The span `text.substr(a, b - a)`, i.e. characters `[a, b)`. -/
def sublist (text : List Char) (a b : Nat) : List Char :=
  (text.drop a).take (b - a)

/-- The character at an index, defaulting to a blank for an out-of-range index
(never consulted in range). -/
def charAt (text : List Char) (i : Nat) : Char :=
  (text[i]?).getD ' '

/-- Scan for a character starting at a given index (helper for `findFrom`). -/
def findFromAux (c : Char) : List Char → Nat → Option Nat
  | [], _ => none
  | x :: xs, 0 => if x = c then some 0 else (findFromAux c xs 0).map (· + 1)
  | _ :: xs, k + 1 => (findFromAux c xs k).map (· + 1)

/-- The first index `i ≥ curr` with `text[i] = c`, i.e.
`std::string_view::find(c, curr)`; `none` models `npos`. -/
def findFrom (c : Char) (text : List Char) (curr : Nat) : Option Nat :=
  findFromAux c text curr

/-- The scanning loop of `Substituter<A...>::parse` (substitute.hpp lines
219-264), producing the logged diagnostics and the recorded substitutions in
scan order.  The first argument is fuel bounding the number of loop
iterations; each iteration advances `curr` by at least two, so
`text.length + 1` always suffices. -/
def parseLoopF {Ctx : Type} (vars : Variables Ctx) (text : List Char) :
    Nat → Nat → List Diag × List (Substitution Ctx)
  | 0, _ => ([], [])
  | fuel + 1, curr =>
    match findFrom '@' text curr with
    | none => ([], [])
    | some i =>
      if i + 1 = text.length then
        ([Diag.unterminatedMarker i], [])
      else
        let ch := charAt text (i + 1)
        if ch = '{' then
          match findFrom '}' text (i + 2) with
          | none =>
            let r := parseLoopF vars text fuel (i + 2)
            (Diag.unterminatedBrace i :: r.1, r.2)
          | some j =>
            let var_name := sublist text (i + 2) j
            match lookupEntry vars var_name with
            | none =>
              let r := parseLoopF vars text fuel (j + 1)
              (Diag.undefinedVariable var_name i (j + 1) :: r.1, r.2)
            | some entry =>
              let r := parseLoopF vars text fuel (j + 1)
              (r.1, ⟨i, j + 1, some entry⟩ :: r.2)
        else if ch = '@' then
          let r := parseLoopF vars text fuel (i + 2)
          (r.1, ⟨i, i + 2, none⟩ :: r.2)
        else
          let var_name := sublist text (i + 1) (i + 2)
          match lookupEntry vars var_name with
          | none =>
            let r := parseLoopF vars text fuel (i + 2)
            (Diag.undefinedVariable var_name i (i + 2) :: r.1, r.2)
          | some entry =>
            let r := parseLoopF vars text fuel (i + 2)
            (r.1, ⟨i, i + 2, some entry⟩ :: r.2)

/-- Construction configuration, `SubstituterConfig`: the leniency flag.  The
optional logger is not modelled; diagnostics are returned by the parse loop
instead of being written to a sink. -/
structure SubstituterConfig where
  lenient : Bool := false

/-- The engine, `Substituter<A...>`: leniency flag and variable table. -/
structure Substituter (Ctx : Type) where
  m_lenient : Bool
  m_variables : Variables Ctx

/-- Engine construction `Substituter(SubstituterConfig)`: an empty variable
table with the configured leniency. -/
def mkSubstituter (Ctx : Type) (config : SubstituterConfig) : Substituter Ctx :=
  { m_lenient := config.lenient, m_variables := [] }

/-- A fatal setup error: the `std::runtime_error` thrown by
`Substituter::define` on a duplicate name, or the compile-time failure of
owner-type resolution for a field-extraction binding. -/
inductive DefineError where
  | multipleDefinitions
  | noContextMatch
deriving DecidableEq

/-- `Substituter<A...>::define` (substitute.hpp lines 272-279): `emplace` adds
the binding only when the name is not yet present; otherwise a
`std::runtime_error` ("Multiple definitions for same variable name") is
thrown, modelled as `Except.error`. -/
def Substituter.define {Ctx : Type} (su : Substituter Ctx) (name : List Char)
    (func : Evaluator Ctx) : Except DefineError (Substituter Ctx) :=
  match lookupEntry su.m_variables name with
  | some _ => Except.error DefineError.multipleDefinitions
  | none => Except.ok { su with m_variables := su.m_variables ++ [(name, func)] }

/-- The evaluator installed by the value binding `ProtoDef::operator=(T*)`
(substitute.hpp lines 281-288): the captured pointer `p` is dereferenced in
the ambient heap at each call, the pointee is written through the stream's
insertion operator, and every context instance is ignored. -/
def pointerAssign (Ctx : Type) (p : Nat) : Evaluator Ctx :=
  fun heap _ctx s => (writeChars s (intToChars s.loc (heap p)), none)

/-- The evaluator installed by the field-extraction binding
`ProtoDef::operator=(T C::*)` (substitute.hpp lines 290-298) after owner-type
resolution: `extract` is the composition of `FindArg1<C, A...>::find` with the
member access `obj.*var`, evaluated on the context tuple at each call. -/
def fieldAssign (Ctx : Type) (extract : Ctx → Int) : Evaluator Ctx :=
  fun _heap ctx s => (writeChars s (intToChars s.loc (extract ctx)), none)

/-- `Substituter<A...>::parse` (substitute.hpp lines 219-270): run the scan
loop; if any diagnostic was logged and the engine is not lenient, report
failure and leave the caller's `Template` untouched; otherwise assign the text
and the recorded substitutions into it and report success. -/
def Substituter.parse {Ctx : Type} (su : Substituter Ctx) (text : List Char)
    (templ : Template Ctx) : Bool × Template Ctx :=
  if !(parseLoopF su.m_variables text (text.length + 1) 0).1.isEmpty && !su.m_lenient
  then (false, templ)
  else (true, { m_text := text,
                m_substitutions := (parseLoopF su.m_variables text (text.length + 1) 0).2 })

/-- One iteration of the expansion loop of `Template::expand(std::ostream&)`
(substitute.hpp lines 323-347): emit the literal text from the cursor to the
substitution's begin offset; then either run the referenced evaluator and
reset the stream's formatting flags to `cap` (the flags captured on entry to
`expand`) — on the normal path via `out.flags(flags)` and on the failing path
via the `catch` block — or, for a self-escape, emit one literal marker. -/
def stepSubst {Ctx : Type} (cap : Flags) (text : List Char) (heap : Heap)
    (ctx : Ctx) (curr : Nat) (sub : Substitution Ctx) (s : StreamState) :
    StreamState × Option Err :=
  let s1 := writeChars s (sublist text curr sub.beginOff)
  match sub.var_def with
  | some entry =>
    let r := entry.2 heap ctx s1
    ({ r.1 with flags := cap }, r.2)
  | none => (writeChars s1 ['@'], none)

/-- The expansion loop of `Template::expand(std::ostream&)`: process the
substitutions in order, propagating the first evaluator failure (with flags
already restored), and emit the literal tail after the last substitution. -/
def expandGo {Ctx : Type} (cap : Flags) (text : List Char) (heap : Heap)
    (ctx : Ctx) : List (Substitution Ctx) → Nat → StreamState → StreamState × Option Err
  | [], curr, s => (writeChars s (sublist text curr text.length), none)
  | sub :: rest, curr, s =>
    match (stepSubst cap text heap ctx curr sub s).2 with
    | none => expandGo cap text heap ctx rest sub.endOff (stepSubst cap text heap ctx curr sub s).1
    | some e => ((stepSubst cap text heap ctx curr sub s).1, some e)

/-- `Template::expand(std::ostream&, A...)`: capture the stream's formatting
flags on entry and run the expansion loop. -/
def Template.expandStream {Ctx : Type} (t : Template Ctx) (heap : Heap)
    (ctx : Ctx) (s : StreamState) : StreamState × Option Err :=
  expandGo s.flags t.m_text heap ctx t.m_substitutions 0 s

/-- `Template::expand(A&&...) → std::string` (substitute.hpp lines 313-321):
render into a fresh `std::ostringstream` — default formatting flags, the
ambient global locale replaced via `imbue` with `std::locale::classic()` —
and return the accumulated characters (plus any propagated sink failure). -/
def Template.expandString {Ctx : Type} (t : Template Ctx) (globalLoc : Locale)
    (heap : Heap) (ctx : Ctx) : List Char × Option Err :=
  ((Template.expandStream t heap ctx
      (imbue { out := [], flags := defaultFlags, loc := globalLoc } classicLocale)).1.out,
   (Template.expandStream t heap ctx
      (imbue { out := [], flags := defaultFlags, loc := globalLoc } classicLocale)).2)

/-- `Template::refers_to(name)` (substitute.hpp lines 349-361): some recorded
substitution resolves to the variable of that name. -/
def Template.refers_to {Ctx : Type} (t : Template Ctx) (name : List Char) : Bool :=
  t.m_substitutions.any (fun sub =>
    match sub.var_def with
    | some entry => entry.1 == name
    | none => false)

/-- The one-shot convenience `Substituter::expand(text, out, arg...)`
(substitute.hpp lines 201-210): parse into a fresh default-constructed
template; on success expand it once into the stream. -/
def Substituter.expand {Ctx : Type} (su : Substituter Ctx) (text : List Char)
    (heap : Heap) (ctx : Ctx) (s : StreamState) :
    Bool × StreamState × Option Err :=
  if (su.parse text ⟨[], []⟩).1 then
    (true, ((su.parse text ⟨[], []⟩).2.expandStream heap ctx s).1,
     ((su.parse text ⟨[], []⟩).2.expandStream heap ctx s).2)
  else (false, s, none)

/-- A context type of the parameter pack `A...`, identified by a code (the
value-level image of the compile-time type list). -/
abbrev TypeName := Nat

/-- `SubstituterBase::FindArg1` / `FindArg2` (substitute.hpp lines 153-180):
walk the context-type pack and return the first type for which
`std::is_convertible<A*, const C*>` holds (`conv`), i.e. the first context
type assignable from the owner type.  The two `FindArg2` specialisations are
the two branches of the conditional.  For an empty pack the primary `FindArg1`
template is only declared, never defined — a compile-time error — modelled by
`none`. -/
def findArg1 (conv : TypeName → Bool) : List TypeName → Option TypeName
  | [] => none
  | a :: b => if conv a then some a else findArg1 conv b

/-- Owner-type resolution performed when `ProtoDef::operator=(T C::*)` is
instantiated, i.e. at `define` time: resolve the owner type `C` against the
engine's fixed context-type list via `FindArg1`; failure (no convertible
context type) is a compile-time error at the definition site, modelled as a
setup error. -/
def defineFieldBinding (types : List TypeName) (assignableFromOwner : TypeName → Bool) :
    Except DefineError TypeName :=
  match findArg1 assignableFromOwner types with
  | none => Except.error DefineError.noContextMatch
  | some t => Except.ok t

/-- An evaluator that, on the given heap and context, appends a fixed
character sequence `w` and succeeds, from every stream state.  The evaluators
produced by the value, field-extraction and constant custom bindings all have
this shape for a fixed heap, context and locale. -/
def ConstOutput {Ctx : Type} (ev : Evaluator Ctx) (heap : Heap) (ctx : Ctx)
    (w : List Char) : Prop :=
  ∀ s, ev heap ctx s = (writeChars s w, none)

/-- Concrete evaluator writing the single character `7`
(a constant custom binding), used by concrete scenarios below. -/
def exEval7 : Evaluator Unit := fun _ _ s => (writeChars s ['7'], none)

/-- Concrete evaluator writing the single character `X`, used by concrete
scenarios below. -/
def exEvalX : Evaluator Unit := fun _ _ s => (writeChars s ['X'], none)

/-- Variable table with the single-letter variable `x` bound to `exEval7`. -/
def exVars1 : Variables Unit := [(['x'], exEval7)]

/-- The template text `@{m}@x`: one undefined braced reference followed by one
defined compact reference. -/
def exText1 : List Char := ['@', '{', 'm', '}', '@', 'x']

/-- Variable table binding the braced name `a@@b` to `exEvalX`. -/
def exVars5 : Variables Unit := [(['a', '@', '@', 'b'], exEvalX)]

/-- The template text `@{a@@b}`: a braced reference whose name contains the
two-byte sequence `@@`. -/
def exText5 : List Char := ['@', '{', 'a', '@', '@', 'b', '}']

/-- Concrete evaluator that writes `Z` and mutates the stream's formatting
flags (e.g. switches the number base), used to exercise flag restoration. -/
def exEvalMut : Evaluator Unit := fun _ _ s =>
  ({ out := s.out ++ ['Z'], flags := 99, loc := s.loc }, none)

/-- Concrete evaluator that mutates the formatting flags and then propagates a
sink write failure, used to exercise the failing exit path. -/
def exEvalFail : Evaluator Unit := fun _ _ s =>
  ({ out := s.out, flags := 77, loc := s.loc }, some 1)

/-! ### Helper lemmas -/

theorem writeChars_out (s : StreamState) (w : List Char) :
    (writeChars s w).out = s.out ++ w := rfl

theorem writeChars_flags (s : StreamState) (w : List Char) :
    (writeChars s w).flags = s.flags := rfl

theorem findFromAux_bounds (c : Char) :
    ∀ (xs : List Char) (k i : Nat), findFromAux c xs k = some i → k ≤ i ∧ i < xs.length
  | [], k, i, h => by simp [findFromAux] at h
  | x :: xs, 0, i, h => by
    simp only [findFromAux] at h
    by_cases hx : x = c
    · rw [if_pos hx] at h
      injection h with h'
      subst h'
      simp
    · rw [if_neg hx] at h
      rcases Option.map_eq_some'.mp h with ⟨i', hi', rfl⟩
      have hb := findFromAux_bounds c xs 0 i' hi'
      simp only [List.length_cons]
      omega
  | _ :: xs, k + 1, i, h => by
    simp only [findFromAux] at h
    rcases Option.map_eq_some'.mp h with ⟨i', hi', rfl⟩
    have hb := findFromAux_bounds c xs k i' hi'
    simp only [List.length_cons]
    omega

theorem findFromAux_at (c : Char) :
    ∀ (xs : List Char) (k : Nat), xs[k]? = some c → findFromAux c xs k = some k
  | [], k, h => by simp at h
  | x :: xs, 0, h => by
    simp only [List.getElem?_cons_zero, Option.some.injEq] at h
    simp [findFromAux, h]
  | _ :: xs, k + 1, h => by
    simp only [List.getElem?_cons_succ] at h
    simp only [findFromAux]
    rw [findFromAux_at c xs k h]
    rfl

theorem findFrom_bounds (c : Char) (text : List Char) (curr i : Nat)
    (h : findFrom c text curr = some i) : curr ≤ i ∧ i < text.length :=
  findFromAux_bounds c text curr i h

theorem findFrom_at (c : Char) (text : List Char) (i : Nat)
    (h : text[i]? = some c) : findFrom c text i = some i :=
  findFromAux_at c text i h

theorem charAt_eq (text : List Char) (i : Nat) (c : Char)
    (h : text[i]? = some c) : charAt text i = c := by
  simp [charAt, h]

theorem sublist_split (t : List Char) (a b c : Nat) (hab : a ≤ b) (hbc : b ≤ c) :
    sublist t a c = sublist t a b ++ sublist t b c := by
  unfold sublist
  have h1 : c - a = (b - a) + (c - b) := by omega
  rw [h1, List.take_add, List.drop_drop]
  have h2 : a + (b - a) = b := by omega
  rw [h2]

theorem lookupEntry_key {Ctx : Type} (vars : Variables Ctx) (name : List Char)
    (p : List Char × Evaluator Ctx) (h : lookupEntry vars name = some p) :
    p.1 = name := by
  have hb := List.find?_some h
  exact eq_of_beq hb

theorem lookupEntry_self {Ctx : Type} (vars : Variables Ctx) (name : List Char)
    (p : List Char × Evaluator Ctx) (h : lookupEntry vars name = some p) :
    lookupEntry vars p.1 = some p := by
  rw [lookupEntry_key vars name p h]
  exact h

/-- Combined invariant of the parse scan from position `curr`: every recorded
substitution starts at or after `curr`, spans at least two characters, ends
within the text, and references an entry actually present in the variable
table; the recorded spans are pairwise disjoint in scan order; and every
undefined-variable diagnostic names a span inside the text that no recorded
substitution intersects. -/
theorem parseLoopF_inv {Ctx : Type} (vars : Variables Ctx) (text : List Char) :
    ∀ (fuel curr : Nat),
      (∀ sub ∈ (parseLoopF vars text fuel curr).2,
          curr ≤ sub.beginOff ∧ sub.beginOff + 2 ≤ sub.endOff ∧ sub.endOff ≤ text.length
            ∧ ∀ p, sub.var_def = some p → lookupEntry vars p.1 = some p)
      ∧ (parseLoopF vars text fuel curr).2.Pairwise (fun x y => x.endOff ≤ y.beginOff)
      ∧ (∀ name a b, Diag.undefinedVariable name a b ∈ (parseLoopF vars text fuel curr).1 →
          curr ≤ a ∧ a < b ∧ b ≤ text.length
            ∧ ∀ sub ∈ (parseLoopF vars text fuel curr).2, sub.endOff ≤ a ∨ b ≤ sub.beginOff)
  | 0, curr => by
    have h0 : parseLoopF vars text 0 curr = ([], []) := rfl
    rw [h0]
    exact ⟨fun sub hsub => absurd hsub (List.not_mem_nil sub), List.Pairwise.nil,
      fun name a b hmem => absurd hmem (List.not_mem_nil _)⟩
  | fuel + 1, curr => by
    cases hf : findFrom '@' text curr with
    | none =>
      have heq : parseLoopF vars text (fuel + 1) curr = ([], []) := by
        conv_lhs => unfold parseLoopF
        rw [hf]
      have h1 : (parseLoopF vars text (fuel + 1) curr).1 = [] := by rw [heq]
      have h2 : (parseLoopF vars text (fuel + 1) curr).2 = [] := by rw [heq]
      rw [h1, h2]
      exact ⟨fun sub hsub => absurd hsub (List.not_mem_nil sub), List.Pairwise.nil,
        fun name a b hmem => absurd hmem (List.not_mem_nil _)⟩
    | some i =>
      obtain ⟨hci, hil⟩ := findFrom_bounds '@' text curr i hf
      by_cases hend : i + 1 = text.length
      · have heq : parseLoopF vars text (fuel + 1) curr
            = ([Diag.unterminatedMarker i], []) := by
          conv_lhs => unfold parseLoopF
          rw [hf]
          simp only [if_pos hend]
        have h1 : (parseLoopF vars text (fuel + 1) curr).1 = [Diag.unterminatedMarker i] := by
          rw [heq]
        have h2 : (parseLoopF vars text (fuel + 1) curr).2 = [] := by rw [heq]
        rw [h1, h2]
        refine ⟨fun sub hsub => absurd hsub (List.not_mem_nil sub), List.Pairwise.nil, ?_⟩
        intro name a b hmem
        rcases List.mem_cons.mp hmem with hd | hd
        · exact Diag.noConfusion hd
        · exact absurd hd (List.not_mem_nil _)
      · by_cases hch : charAt text (i + 1) = '{'
        · cases hg : findFrom '}' text (i + 2) with
          | none =>
            have IH := parseLoopF_inv vars text fuel (i + 2)
            have heq : parseLoopF vars text (fuel + 1) curr
                = (Diag.unterminatedBrace i :: (parseLoopF vars text fuel (i + 2)).1,
                   (parseLoopF vars text fuel (i + 2)).2) := by
              conv_lhs => unfold parseLoopF
              rw [hf]
              simp only [if_neg hend, hch, eq_self_iff_true, ite_true, hg]
            have h1 : (parseLoopF vars text (fuel + 1) curr).1
                = Diag.unterminatedBrace i :: (parseLoopF vars text fuel (i + 2)).1 := by
              rw [heq]
            have h2 : (parseLoopF vars text (fuel + 1) curr).2
                = (parseLoopF vars text fuel (i + 2)).2 := by rw [heq]
            rw [h1, h2]
            refine ⟨?_, IH.2.1, ?_⟩
            · intro sub hsub
              have hx := IH.1 sub hsub
              exact ⟨by omega, hx.2.1, hx.2.2.1, hx.2.2.2⟩
            · intro name a b hmem
              rcases List.mem_cons.mp hmem with hd | hmem'
              · exact Diag.noConfusion hd
              · have hx := IH.2.2 name a b hmem'
                exact ⟨by omega, hx.2.1, hx.2.2.1, hx.2.2.2⟩
          | some j =>
            obtain ⟨hcj, hjl⟩ := findFrom_bounds '}' text (i + 2) j hg
            have IH := parseLoopF_inv vars text fuel (j + 1)
            cases hk : lookupEntry vars (sublist text (i + 2) j) with
            | none =>
              have heq : parseLoopF vars text (fuel + 1) curr
                  = (Diag.undefinedVariable (sublist text (i + 2) j) i (j + 1)
                       :: (parseLoopF vars text fuel (j + 1)).1,
                     (parseLoopF vars text fuel (j + 1)).2) := by
                conv_lhs => unfold parseLoopF
                rw [hf]
                simp only [if_neg hend, hch, eq_self_iff_true, ite_true, hg, hk]
              have h1 : (parseLoopF vars text (fuel + 1) curr).1
                  = Diag.undefinedVariable (sublist text (i + 2) j) i (j + 1)
                      :: (parseLoopF vars text fuel (j + 1)).1 := by rw [heq]
              have h2 : (parseLoopF vars text (fuel + 1) curr).2
                  = (parseLoopF vars text fuel (j + 1)).2 := by rw [heq]
              rw [h1, h2]
              refine ⟨?_, IH.2.1, ?_⟩
              · intro sub hsub
                have hx := IH.1 sub hsub
                exact ⟨by omega, hx.2.1, hx.2.2.1, hx.2.2.2⟩
              · intro name a b hmem
                rcases List.mem_cons.mp hmem with hd | hmem'
                · injection hd with e1 e2 e3
                  subst e2
                  subst e3
                  refine ⟨by omega, by omega, by omega, ?_⟩
                  intro sub hsub
                  have hx := IH.1 sub hsub
                  right
                  omega
                · have hx := IH.2.2 name a b hmem'
                  exact ⟨by omega, hx.2.1, hx.2.2.1, hx.2.2.2⟩
            | some entry =>
              have heq : parseLoopF vars text (fuel + 1) curr
                  = ((parseLoopF vars text fuel (j + 1)).1,
                     ⟨i, j + 1, some entry⟩ :: (parseLoopF vars text fuel (j + 1)).2) := by
                conv_lhs => unfold parseLoopF
                rw [hf]
                simp only [if_neg hend, hch, eq_self_iff_true, ite_true, hg, hk]
              have h1 : (parseLoopF vars text (fuel + 1) curr).1
                  = (parseLoopF vars text fuel (j + 1)).1 := by rw [heq]
              have h2 : (parseLoopF vars text (fuel + 1) curr).2
                  = ⟨i, j + 1, some entry⟩ :: (parseLoopF vars text fuel (j + 1)).2 := by
                rw [heq]
              rw [h1, h2]
              refine ⟨?_, ?_, ?_⟩
              · intro sub hsub
                rcases List.mem_cons.mp hsub with rfl | hmem'
                · refine ⟨by dsimp only; omega, by dsimp only; omega, by dsimp only; omega, ?_⟩
                  intro p hp
                  dsimp only at hp
                  injection hp with hp'
                  subst hp'
                  exact lookupEntry_self vars _ entry hk
                · have hx := IH.1 sub hmem'
                  exact ⟨by omega, hx.2.1, hx.2.2.1, hx.2.2.2⟩
              · refine List.pairwise_cons.mpr ⟨?_, IH.2.1⟩
                intro sub hsub
                have hx := IH.1 sub hsub
                dsimp only
                omega
              · intro name a b hmem
                have hx := IH.2.2 name a b hmem
                refine ⟨by omega, hx.2.1, hx.2.2.1, ?_⟩
                intro sub hsub
                rcases List.mem_cons.mp hsub with rfl | hmem'
                · left
                  dsimp only
                  omega
                · exact hx.2.2.2 sub hmem'
        · have hilen2 : i + 2 ≤ text.length := by omega
          have IH := parseLoopF_inv vars text fuel (i + 2)
          by_cases hat : charAt text (i + 1) = '@'
          · have heq : parseLoopF vars text (fuel + 1) curr
                = ((parseLoopF vars text fuel (i + 2)).1,
                   ⟨i, i + 2, none⟩ :: (parseLoopF vars text fuel (i + 2)).2) := by
              conv_lhs => unfold parseLoopF
              rw [hf]
              simp only [if_neg hend, if_neg hch, if_pos hat]
            have h1 : (parseLoopF vars text (fuel + 1) curr).1
                = (parseLoopF vars text fuel (i + 2)).1 := by rw [heq]
            have h2 : (parseLoopF vars text (fuel + 1) curr).2
                = ⟨i, i + 2, none⟩ :: (parseLoopF vars text fuel (i + 2)).2 := by rw [heq]
            rw [h1, h2]
            refine ⟨?_, ?_, ?_⟩
            · intro sub hsub
              rcases List.mem_cons.mp hsub with rfl | hmem'
              · refine ⟨by dsimp only; omega, by dsimp only; omega, by dsimp only; omega, ?_⟩
                intro p hp
                dsimp only at hp
                exact Option.noConfusion hp
              · have hx := IH.1 sub hmem'
                exact ⟨by omega, hx.2.1, hx.2.2.1, hx.2.2.2⟩
            · refine List.pairwise_cons.mpr ⟨?_, IH.2.1⟩
              intro sub hsub
              have hx := IH.1 sub hsub
              dsimp only
              omega
            · intro name a b hmem
              have hx := IH.2.2 name a b hmem
              refine ⟨by omega, hx.2.1, hx.2.2.1, ?_⟩
              intro sub hsub
              rcases List.mem_cons.mp hsub with rfl | hmem'
              · left
                dsimp only
                omega
              · exact hx.2.2.2 sub hmem'
          · cases hk : lookupEntry vars (sublist text (i + 1) (i + 2)) with
            | none =>
              have heq : parseLoopF vars text (fuel + 1) curr
                  = (Diag.undefinedVariable (sublist text (i + 1) (i + 2)) i (i + 2)
                       :: (parseLoopF vars text fuel (i + 2)).1,
                     (parseLoopF vars text fuel (i + 2)).2) := by
                conv_lhs => unfold parseLoopF
                rw [hf]
                simp only [if_neg hend, if_neg hch, if_neg hat, hk]
              have h1 : (parseLoopF vars text (fuel + 1) curr).1
                  = Diag.undefinedVariable (sublist text (i + 1) (i + 2)) i (i + 2)
                      :: (parseLoopF vars text fuel (i + 2)).1 := by rw [heq]
              have h2 : (parseLoopF vars text (fuel + 1) curr).2
                  = (parseLoopF vars text fuel (i + 2)).2 := by rw [heq]
              rw [h1, h2]
              refine ⟨?_, IH.2.1, ?_⟩
              · intro sub hsub
                have hx := IH.1 sub hsub
                exact ⟨by omega, hx.2.1, hx.2.2.1, hx.2.2.2⟩
              · intro name a b hmem
                rcases List.mem_cons.mp hmem with hd | hmem'
                · injection hd with e1 e2 e3
                  subst e2
                  subst e3
                  refine ⟨by omega, by omega, by omega, ?_⟩
                  intro sub hsub
                  have hx := IH.1 sub hsub
                  right
                  omega
                · have hx := IH.2.2 name a b hmem'
                  exact ⟨by omega, hx.2.1, hx.2.2.1, hx.2.2.2⟩
            | some entry =>
              have heq : parseLoopF vars text (fuel + 1) curr
                  = ((parseLoopF vars text fuel (i + 2)).1,
                     ⟨i, i + 2, some entry⟩ :: (parseLoopF vars text fuel (i + 2)).2) := by
                conv_lhs => unfold parseLoopF
                rw [hf]
                simp only [if_neg hend, if_neg hch, if_neg hat, hk]
              have h1 : (parseLoopF vars text (fuel + 1) curr).1
                  = (parseLoopF vars text fuel (i + 2)).1 := by rw [heq]
              have h2 : (parseLoopF vars text (fuel + 1) curr).2
                  = ⟨i, i + 2, some entry⟩ :: (parseLoopF vars text fuel (i + 2)).2 := by
                rw [heq]
              rw [h1, h2]
              refine ⟨?_, ?_, ?_⟩
              · intro sub hsub
                rcases List.mem_cons.mp hsub with rfl | hmem'
                · refine ⟨by dsimp only; omega, by dsimp only; omega, by dsimp only; omega, ?_⟩
                  intro p hp
                  dsimp only at hp
                  injection hp with hp'
                  subst hp'
                  exact lookupEntry_self vars _ entry hk
                · have hx := IH.1 sub hmem'
                  exact ⟨by omega, hx.2.1, hx.2.2.1, hx.2.2.2⟩
              · refine List.pairwise_cons.mpr ⟨?_, IH.2.1⟩
                intro sub hsub
                have hx := IH.1 sub hsub
                dsimp only
                omega
              · intro name a b hmem
                have hx := IH.2.2 name a b hmem
                refine ⟨by omega, hx.2.1, hx.2.2.1, ?_⟩
                intro sub hsub
                rcases List.mem_cons.mp hsub with rfl | hmem'
                · left
                  dsimp only
                  omega
                · exact hx.2.2.2 sub hmem'

/-! ### Expansion lemmas -/

theorem stepSubst_flags {Ctx : Type} (cap : Flags) (text : List Char) (heap : Heap)
    (ctx : Ctx) (curr : Nat) (sub : Substitution Ctx) (s : StreamState)
    (h : s.flags = cap) :
    (stepSubst cap text heap ctx curr sub s).1.flags = cap := by
  unfold stepSubst
  cases hv : sub.var_def with
  | none => simpa [writeChars] using h
  | some entry => rfl

/-- Computation of one expansion step on a resolved substitution whose
evaluator is `ConstOutput`. -/
theorem stepSubst_const {Ctx : Type} (cap : Flags) (text : List Char) (heap : Heap)
    (ctx : Ctx) (curr : Nat) (sub : Substitution Ctx) (s : StreamState)
    (nm : List Char) (ev : Evaluator Ctx) (w : List Char)
    (hv : sub.var_def = some (nm, ev)) (hc : ConstOutput ev heap ctx w) :
    stepSubst cap text heap ctx curr sub s
      = ({ out := s.out ++ sublist text curr sub.beginOff ++ w, flags := cap,
           loc := s.loc }, none) := by
  unfold stepSubst
  rw [hv]
  dsimp only
  rw [hc]
  simp [writeChars]

/-- Computation of one expansion step on a self-escape substitution. -/
theorem stepSubst_esc {Ctx : Type} (cap : Flags) (text : List Char) (heap : Heap)
    (ctx : Ctx) (curr : Nat) (sub : Substitution Ctx) (s : StreamState)
    (hv : sub.var_def = none) :
    stepSubst cap text heap ctx curr sub s
      = ({ out := s.out ++ sublist text curr sub.beginOff ++ ['@'], flags := s.flags,
           loc := s.loc }, none) := by
  unfold stepSubst
  rw [hv]
  simp [writeChars]

theorem expandGo_flags {Ctx : Type} (cap : Flags) (text : List Char) (heap : Heap)
    (ctx : Ctx) :
    ∀ (substs : List (Substitution Ctx)) (curr : Nat) (s : StreamState),
      s.flags = cap → (expandGo cap text heap ctx substs curr s).1.flags = cap
  | [], curr, s, h => by simpa [expandGo, writeChars] using h
  | sub :: rest, curr, s, h => by
    unfold expandGo
    have hstep := stepSubst_flags cap text heap ctx curr sub s h
    cases hs : (stepSubst cap text heap ctx curr sub s).2 with
    | none =>
      exact expandGo_flags cap text heap ctx rest sub.endOff
        (stepSubst cap text heap ctx curr sub s).1 hstep
    | some e => exact hstep

/-- Expansion only appends to the stream when every resolved evaluator is
`ConstOutput` on the given heap and context. -/
theorem expandGo_out_append {Ctx : Type} (cap : Flags) (text : List Char) (heap : Heap)
    (ctx : Ctx) :
    ∀ (substs : List (Substitution Ctx)) (curr : Nat) (s : StreamState),
      (∀ sub ∈ substs, ∀ nm ev, sub.var_def = some (nm, ev) →
        ∃ w, ConstOutput ev heap ctx w) →
      ∃ u, (expandGo cap text heap ctx substs curr s).1.out = s.out ++ u
  | [], curr, s, _ => ⟨sublist text curr text.length, by simp [expandGo, writeChars]⟩
  | sub :: rest, curr, s, hc => by
    unfold expandGo
    cases hv : sub.var_def with
    | none =>
      rw [stepSubst_esc cap text heap ctx curr sub s hv]
      obtain ⟨u, hu⟩ := expandGo_out_append cap text heap ctx rest sub.endOff
        ({ out := s.out ++ sublist text curr sub.beginOff ++ ['@'], flags := s.flags,
           loc := s.loc })
        (fun sub2 hsub2 => hc sub2 (List.mem_cons_of_mem sub hsub2))
      exact ⟨sublist text curr sub.beginOff ++ ['@'] ++ u, by
        rw [hu]
        simp [List.append_assoc]⟩
    | some entry =>
      obtain ⟨w, hw⟩ := hc sub (List.mem_cons_self sub rest) entry.1 entry.2 (by rw [hv])
      rw [stepSubst_const cap text heap ctx curr sub s entry.1 entry.2 w (by rw [hv]) hw]
      obtain ⟨u, hu⟩ := expandGo_out_append cap text heap ctx rest sub.endOff
        ({ out := s.out ++ sublist text curr sub.beginOff ++ w, flags := cap,
           loc := s.loc })
        (fun sub2 hsub2 => hc sub2 (List.mem_cons_of_mem sub hsub2))
      exact ⟨sublist text curr sub.beginOff ++ w ++ u, by
        rw [hu]
        simp [List.append_assoc]⟩

/-- When no recorded substitution intersects the span `[a, b)` and every
resolved evaluator is `ConstOutput`, the expansion output contains the bytes
`text[a..b)` contiguously and verbatim. -/
theorem expandGo_contains_gap {Ctx : Type} (cap : Flags) (text : List Char) (heap : Heap)
    (ctx : Ctx) :
    ∀ (substs : List (Substitution Ctx)) (curr : Nat) (s : StreamState) (a b : Nat),
      curr ≤ a → a ≤ b → b ≤ text.length →
      (∀ sub ∈ substs, curr ≤ sub.beginOff ∧ sub.beginOff + 2 ≤ sub.endOff
        ∧ sub.endOff ≤ text.length) →
      substs.Pairwise (fun x y => x.endOff ≤ y.beginOff) →
      (∀ sub ∈ substs, sub.endOff ≤ a ∨ b ≤ sub.beginOff) →
      (∀ sub ∈ substs, ∀ nm ev, sub.var_def = some (nm, ev) →
        ∃ w, ConstOutput ev heap ctx w) →
      ∃ u v, (expandGo cap text heap ctx substs curr s).1.out
          = u ++ sublist text a b ++ v
  | [], curr, s, a, b, hca, hab, hbl, _, _, _, _ => by
    refine ⟨s.out ++ sublist text curr a, sublist text b text.length, ?_⟩
    have h1 : sublist text curr text.length
        = sublist text curr a ++ sublist text a text.length :=
      sublist_split text curr a text.length hca (by omega)
    have h2 : sublist text a text.length
        = sublist text a b ++ sublist text b text.length :=
      sublist_split text a b text.length hab hbl
    simp [expandGo, writeChars, h1, h2]
  | sub :: rest, curr, s, a, b, hca, hab, hbl, hbounds, hpw, hgap, hc => by
    have hcrest : ∀ sub2 ∈ rest, ∀ nm ev, sub2.var_def = some (nm, ev) →
        ∃ w, ConstOutput ev heap ctx w :=
      fun sub2 hsub2 => hc sub2 (List.mem_cons_of_mem sub hsub2)
    have hbsub := hbounds sub (List.mem_cons_self sub rest)
    rcases hgap sub (List.mem_cons_self sub rest) with hba | hba
    · -- the span [a, b) lies beyond this substitution: step past it and recurse
      have hbrest : ∀ sub2 ∈ rest, sub.endOff ≤ sub2.beginOff ∧ sub2.beginOff + 2 ≤ sub2.endOff
          ∧ sub2.endOff ≤ text.length := by
        intro sub2 hsub2
        have h1 := (List.pairwise_cons.mp hpw).1 sub2 hsub2
        have h2 := hbounds sub2 (List.mem_cons_of_mem sub hsub2)
        exact ⟨h1, h2.2.1, h2.2.2⟩
      unfold expandGo
      cases hv : sub.var_def with
      | none =>
        rw [stepSubst_esc cap text heap ctx curr sub s hv]
        exact expandGo_contains_gap cap text heap ctx rest sub.endOff _ a b
          (by omega) hab hbl hbrest (List.pairwise_cons.mp hpw).2
          (fun sub2 hsub2 => hgap sub2 (List.mem_cons_of_mem sub hsub2)) hcrest
      | some entry =>
        obtain ⟨w, hw⟩ := hc sub (List.mem_cons_self sub rest) entry.1 entry.2 (by rw [hv])
        rw [stepSubst_const cap text heap ctx curr sub s entry.1 entry.2 w (by rw [hv]) hw]
        exact expandGo_contains_gap cap text heap ctx rest sub.endOff _ a b
          (by omega) hab hbl hbrest (List.pairwise_cons.mp hpw).2
          (fun sub2 hsub2 => hgap sub2 (List.mem_cons_of_mem sub hsub2)) hcrest
    · -- the span [a, b) lies inside the literal before this substitution
      have hsplit : sublist text curr sub.beginOff
          = sublist text curr a ++ sublist text a b ++ sublist text b sub.beginOff := by
        have h1 : sublist text curr sub.beginOff
            = sublist text curr a ++ sublist text a sub.beginOff :=
          sublist_split text curr a sub.beginOff hca (by omega)
        have h2 : sublist text a sub.beginOff
            = sublist text a b ++ sublist text b sub.beginOff :=
          sublist_split text a b sub.beginOff hab (by omega)
        rw [h1, h2, List.append_assoc]
      unfold expandGo
      cases hv : sub.var_def with
      | none =>
        rw [stepSubst_esc cap text heap ctx curr sub s hv]
        obtain ⟨u, hu⟩ := expandGo_out_append cap text heap ctx rest sub.endOff
          ({ out := s.out ++ sublist text curr sub.beginOff ++ ['@'], flags := s.flags,
             loc := s.loc }) hcrest
        refine ⟨s.out ++ sublist text curr a,
          sublist text b sub.beginOff ++ ['@'] ++ u, ?_⟩
        rw [hu]
        dsimp only
        rw [hsplit]
        simp [List.append_assoc]
      | some entry =>
        obtain ⟨w, hw⟩ := hc sub (List.mem_cons_self sub rest) entry.1 entry.2 (by rw [hv])
        rw [stepSubst_const cap text heap ctx curr sub s entry.1 entry.2 w (by rw [hv]) hw]
        obtain ⟨u, hu⟩ := expandGo_out_append cap text heap ctx rest sub.endOff
          ({ out := s.out ++ sublist text curr sub.beginOff ++ w, flags := cap,
             loc := s.loc }) hcrest
        refine ⟨s.out ++ sublist text curr a,
          sublist text b sub.beginOff ++ w ++ u, ?_⟩
        rw [hu]
        dsimp only
        rw [hsplit]
        simp [List.append_assoc]

/-- The output of a `ConstOutput` evaluator referenced by a recorded
substitution appears contiguously in the expansion output. -/
theorem expandGo_contains_eval {Ctx : Type} (cap : Flags) (text : List Char) (heap : Heap)
    (ctx : Ctx) :
    ∀ (substs : List (Substitution Ctx)) (curr : Nat) (s : StreamState)
      (sub0 : Substitution Ctx) (nm : List Char) (ev : Evaluator Ctx) (w : List Char),
      sub0 ∈ substs → sub0.var_def = some (nm, ev) → ConstOutput ev heap ctx w →
      (∀ sub ∈ substs, ∀ nm2 ev2, sub.var_def = some (nm2, ev2) →
        ∃ w2, ConstOutput ev2 heap ctx w2) →
      ∃ u v, (expandGo cap text heap ctx substs curr s).1.out = u ++ w ++ v
  | [], curr, s, sub0, nm, ev, w, hmem, _, _, _ => absurd hmem (List.not_mem_nil sub0)
  | sub :: rest, curr, s, sub0, nm, ev, w, hmem, hv0, hcw, hc => by
    have hcrest : ∀ sub2 ∈ rest, ∀ nm2 ev2, sub2.var_def = some (nm2, ev2) →
        ∃ w2, ConstOutput ev2 heap ctx w2 :=
      fun sub2 hsub2 => hc sub2 (List.mem_cons_of_mem sub hsub2)
    rcases List.mem_cons.mp hmem with rfl | hmem'
    · unfold expandGo
      rw [stepSubst_const cap text heap ctx curr sub0 s nm ev w hv0 hcw]
      obtain ⟨u, hu⟩ := expandGo_out_append cap text heap ctx rest sub0.endOff
        ({ out := s.out ++ sublist text curr sub0.beginOff ++ w, flags := cap,
           loc := s.loc }) hcrest
      refine ⟨s.out ++ sublist text curr sub0.beginOff, u, ?_⟩
      rw [hu]
    · unfold expandGo
      cases hv : sub.var_def with
      | none =>
        rw [stepSubst_esc cap text heap ctx curr sub s hv]
        exact expandGo_contains_eval cap text heap ctx rest sub.endOff _ sub0 nm ev w
          hmem' hv0 hcw hcrest
      | some entry =>
        obtain ⟨w1, hw1⟩ := hc sub (List.mem_cons_self sub rest) entry.1 entry.2 (by rw [hv])
        rw [stepSubst_const cap text heap ctx curr sub s entry.1 entry.2 w1 (by rw [hv]) hw1]
        exact expandGo_contains_eval cap text heap ctx rest sub.endOff _ sub0 nm ev w
          hmem' hv0 hcw hcrest

/-! ### Parse outcome lemmas -/

theorem parse_fail {Ctx : Type} (su : Substituter Ctx) (text : List Char)
    (templ : Template Ctx)
    (hne : (parseLoopF su.m_variables text (text.length + 1) 0).1 ≠ [])
    (hlen : su.m_lenient = false) :
    su.parse text templ = (false, templ) := by
  unfold Substituter.parse
  have hc : (!(parseLoopF su.m_variables text (text.length + 1) 0).1.isEmpty
      && !su.m_lenient) = true := by
    rw [hlen]
    cases hr : (parseLoopF su.m_variables text (text.length + 1) 0).1 with
    | nil => exact absurd hr hne
    | cons d ds => rfl
  rw [if_pos hc]

theorem parse_ok {Ctx : Type} (su : Substituter Ctx) (text : List Char)
    (templ : Template Ctx)
    (h : (parseLoopF su.m_variables text (text.length + 1) 0).1 = []
      ∨ su.m_lenient = true) :
    su.parse text templ
      = (true, { m_text := text,
                 m_substitutions := (parseLoopF su.m_variables text (text.length + 1) 0).2 }) := by
  unfold Substituter.parse
  have hc : (!(parseLoopF su.m_variables text (text.length + 1) 0).1.isEmpty
      && !su.m_lenient) = false := by
    rcases h with h | h
    · rw [h]
      rfl
    · rw [h]
      exact Bool.and_false _
  rw [if_neg (by rw [hc]; exact Bool.false_ne_true)]

theorem parse_true_template {Ctx : Type} (su : Substituter Ctx) (text : List Char)
    (templ : Template Ctx) (h : (su.parse text templ).1 = true) :
    (su.parse text templ).2
      = { m_text := text,
          m_substitutions := (parseLoopF su.m_variables text (text.length + 1) 0).2 } := by
  by_cases hc : (!(parseLoopF su.m_variables text (text.length + 1) 0).1.isEmpty
      && !su.m_lenient) = true
  · unfold Substituter.parse at h
    rw [if_pos hc] at h
    exact Bool.noConfusion h
  · unfold Substituter.parse
    rw [if_neg hc]

/-! ### Claim theorems -/

/-- C4: `parse` reports failure iff at least one parse error occurred (some
diagnostic was logged) and the engine is not lenient; on failure the caller's
`Template` is left untouched (no usable compiled template is produced); when
lenient, `parse` always reports success; and on success the best-effort
compiled template (original text plus the recorded substitutions) is
produced. -/
theorem c4_parse_outcome {Ctx : Type} (su : Substituter Ctx) (text : List Char)
    (templ : Template Ctx) :
    ((su.parse text templ).1 = false ↔
      ((parseLoopF su.m_variables text (text.length + 1) 0).1 ≠ []
        ∧ su.m_lenient = false))
    ∧ (su.m_lenient = true → (su.parse text templ).1 = true)
    ∧ ((su.parse text templ).1 = true → (su.parse text templ).2
        = { m_text := text,
            m_substitutions := (parseLoopF su.m_variables text (text.length + 1) 0).2 })
    ∧ ((su.parse text templ).1 = false → (su.parse text templ).2 = templ) := by
  cases hl : su.m_lenient with
  | true =>
    have hp := parse_ok su text templ (Or.inr hl)
    rw [hp]
    exact ⟨⟨fun h => Bool.noConfusion h, fun h => Bool.noConfusion h.2⟩,
      fun _ => rfl, fun _ => rfl, fun h => Bool.noConfusion h⟩
  | false =>
    cases hr : (parseLoopF su.m_variables text (text.length + 1) 0).1 with
    | nil =>
      have hp := parse_ok su text templ (Or.inl hr)
      rw [hp]
      exact ⟨⟨fun h => Bool.noConfusion h, fun h => absurd rfl h.1⟩,
        fun h => Bool.noConfusion h, fun _ => rfl, fun h => Bool.noConfusion h⟩
    | cons d ds =>
      have hne : (parseLoopF su.m_variables text (text.length + 1) 0).1 ≠ [] := by
        rw [hr]
        exact List.cons_ne_nil d ds
      have hp := parse_fail su text templ hne hl
      rw [hp]
      exact ⟨⟨fun _ => ⟨List.cons_ne_nil d ds, rfl⟩, fun _ => rfl⟩,
        fun h => Bool.noConfusion h, fun h => Bool.noConfusion h, fun _ => rfl⟩

/-- C4 witness: a lenient engine parses a text with an undefined reference
successfully, while a strict one refuses the same text. -/
theorem c4_witness :
    (Substituter.parse ⟨true, exVars1⟩ exText1 ⟨[], []⟩).1 = true
    ∧ (Substituter.parse ⟨false, exVars1⟩ exText1 ⟨[], []⟩).1 = false := by
  constructor
  · exact (c4_parse_outcome ⟨true, exVars1⟩ exText1 ⟨[], []⟩).2.1 rfl
  · exact (c4_parse_outcome ⟨false, exVars1⟩ exText1 ⟨[], []⟩).1.mpr ⟨by decide, rfl⟩

/-- C9: when `parse` reports failure the caller-supplied `Template` object is
left completely unchanged — its text view and substitution list retain their
previous values; the parse result is only assigned on success. -/
theorem c9_parse_failure_preserves_template {Ctx : Type} (su : Substituter Ctx)
    (text : List Char) (templ : Template Ctx)
    (h : (su.parse text templ).1 = false) :
    (su.parse text templ).2 = templ := by
  by_cases hc : (!(parseLoopF su.m_variables text (text.length + 1) 0).1.isEmpty
      && !su.m_lenient) = true
  · unfold Substituter.parse
    rw [if_pos hc]
  · unfold Substituter.parse at h
    rw [if_neg hc] at h
    exact Bool.noConfusion h

/-- C9 witness: a strict parse of a text with an undefined variable fails and
returns the caller''s template with its previous contents intact. -/
theorem c9_witness :
    (Substituter.parse ⟨false, exVars1⟩ exText1 ⟨['a'], []⟩).2 = ⟨['a'], []⟩ :=
  c9_parse_failure_preserves_template ⟨false, exVars1⟩ exText1 ⟨['a'], []⟩ (by decide)

/-- C6: defining a variable under a name that is already defined fails with
the fatal `Multiple definitions for same variable name` error, immediately at
`define` time, whatever the engine''s leniency setting (the outcome does not
depend on `m_lenient`, and no recovery path exists: the result is
`Except.error`, never a modified engine). -/
theorem c6_define_duplicate {Ctx : Type} (lenient : Bool) (vars : Variables Ctx)
    (name : List Char) (f : Evaluator Ctx) (entry : List Char × Evaluator Ctx)
    (h : lookupEntry vars name = some entry) :
    Substituter.define ⟨lenient, vars⟩ name f
      = Except.error DefineError.multipleDefinitions := by
  unfold Substituter.define
  dsimp only
  rw [h]

/-- C6 witness: redefining `x` fails on both a lenient and a strict engine. -/
theorem c6_witness :
    Substituter.define ⟨true, exVars1⟩ ['x'] exEvalX
        = Except.error DefineError.multipleDefinitions
    ∧ Substituter.define ⟨false, exVars1⟩ ['x'] exEvalX
        = Except.error DefineError.multipleDefinitions :=
  ⟨c6_define_duplicate true exVars1 ['x'] exEvalX (['x'], exEval7) rfl,
   c6_define_duplicate false exVars1 ['x'] exEvalX (['x'], exEval7) rfl⟩

/-- C7: in every compiled template produced by a successful parse the recorded
substitution spans are pairwise disjoint and in strictly ascending begin-offset
order, and every span lies within the bounds of the original text. -/
theorem c7_spans {Ctx : Type} (su : Substituter Ctx) (text : List Char)
    (templ : Template Ctx) (h : (su.parse text templ).1 = true) :
    ((su.parse text templ).2.m_substitutions.Pairwise
      (fun x y => x.endOff ≤ y.beginOff ∧ x.beginOff < y.beginOff))
    ∧ (∀ sub ∈ (su.parse text templ).2.m_substitutions,
        sub.beginOff < sub.endOff
          ∧ sub.endOff ≤ (su.parse text templ).2.m_text.length) := by
  rw [parse_true_template su text templ h]
  have hinv := parseLoopF_inv su.m_variables text (text.length + 1) 0
  constructor
  · refine List.Pairwise.imp_of_mem ?_ hinv.2.1
    intro x y hx hy hxy
    have hbx := hinv.1 x hx
    exact ⟨hxy, by omega⟩
  · intro sub hsub
    have hb := hinv.1 sub hsub
    exact ⟨by omega, hb.2.2.1⟩

/-- C7 witness: the spans recorded for `@(a@@b)`-style and compact references
satisfy the ordering and bounds invariants on a concrete parse. -/
theorem c7_witness :
    ((Substituter.parse ⟨true, exVars1⟩ exText1 ⟨[], []⟩).2.m_substitutions.Pairwise
      (fun x y => x.endOff ≤ y.beginOff ∧ x.beginOff < y.beginOff))
    ∧ (∀ sub ∈ (Substituter.parse ⟨true, exVars1⟩ exText1 ⟨[], []⟩).2.m_substitutions,
        sub.beginOff < sub.endOff
          ∧ sub.endOff ≤ (Substituter.parse ⟨true, exVars1⟩ exText1 ⟨[], []⟩).2.m_text.length) :=
  c7_spans ⟨true, exVars1⟩ exText1 ⟨[], []⟩ (by decide)

/-- C2 counterexample: with two distinct context types both assignable from
the owner type (`conv` holds of both), owner-type resolution does not raise a
setup error — `FindArg1` silently selects the first match and the field
binding is installed successfully.  This refutes the claim that more than one
match is a fatal setup error at `define`. -/
theorem c2_counterexample :
    List.countP (fun _ => true) ([0, 1] : List TypeName) = 2
    ∧ (0 : TypeName) ≠ 1
    ∧ findArg1 (fun _ => true) [0, 1] = some 0
    ∧ defineFieldBinding [0, 1] (fun _ => true) = Except.ok 0 :=
  ⟨rfl, by decide, rfl, rfl⟩

/-- C2 (amended): at `define` time the engine resolves, among its fixed
ordered context types, the FIRST type assignable from the declared owner type
(`findArg1` is exactly `List.find?`); a binding whose owner type matches no
context type is a fatal setup error raised at `define` (the resolution has no
defining instance, a compile-time failure, modelled as `Except.error`), but a
binding matching more than one context type is not an error: the first match
wins. -/
theorem c2_amended (conv : TypeName → Bool) (ts : List TypeName) :
    findArg1 conv ts = ts.find? conv
    ∧ (defineFieldBinding ts conv = Except.error DefineError.noContextMatch
        ↔ ∀ t ∈ ts, conv t = false) := by
  have h1 : ∀ l : List TypeName, findArg1 conv l = l.find? conv := by
    intro l
    induction l with
    | nil => rfl
    | cons a b ih =>
      unfold findArg1
      cases hc : conv a with
      | true => rw [if_pos rfl, List.find?_cons_of_pos b hc]
      | false =>
        rw [if_neg Bool.false_ne_true, ih,
          List.find?_cons_of_neg b (by rw [hc]; exact Bool.false_ne_true)]
  refine ⟨h1 ts, ?_⟩
  unfold defineFieldBinding
  rw [h1 ts]
  cases hf : ts.find? conv with
  | none =>
    constructor
    · intro _ t ht
      have hn := List.find?_eq_none.mp hf t ht
      cases hcv : conv t with
      | true => exact absurd hcv hn
      | false => rfl
    · intro _
      rfl
  | some t =>
    constructor
    · intro hcontra
      exact Except.noConfusion hcontra
    · intro hall
      have hmem := List.mem_of_find?_eq_some hf
      have hct := List.find?_some hf
      rw [hall t hmem] at hct
      exact Bool.noConfusion hct

/-- C2 witness: resolution against context types `[3, 5]` with an owner type
assignable only to `5` selects `5`, and with an owner type assignable to
neither raises the setup error. -/
theorem c2_witness :
    findArg1 (fun t => t == 5) [3, 5] = List.find? (fun t => t == 5) [3, 5]
    ∧ (defineFieldBinding [3, 5] (fun _ => false)
        = Except.error DefineError.noContextMatch ↔ ∀ t ∈ [3, 5], (fun _ => false) t = false) :=
  c2_amended (fun t => t == 5) [3, 5] |>.1 |> fun h =>
    ⟨h, (c2_amended (fun _ => false) [3, 5]).2⟩

/-- C3: during expansion, the formatting flags an evaluator mutates on the
sink are restored — to the flags captured on entry, which equal the flags in
force just before that evaluator ran — on every exit path of the substitution
step (normal or failing), hence before the next substitution is processed; the
invariant propagates through the whole expansion, and `expand` returns the
stream with its entry flags on both the normal and the failing path. -/
theorem c3_flags_restored {Ctx : Type} (cap : Flags) (text : List Char) (heap : Heap)
    (ctx : Ctx) (curr : Nat) (sub : Substitution Ctx)
    (substs : List (Substitution Ctx)) (t : Template Ctx) (s : StreamState)
    (h : s.flags = cap) :
    (writeChars s (sublist text curr sub.beginOff)).flags = cap
    ∧ (stepSubst cap text heap ctx curr sub s).1.flags = cap
    ∧ (expandGo cap text heap ctx substs curr s).1.flags = cap
    ∧ (Template.expandStream t heap ctx s).1.flags = s.flags := by
  refine ⟨?_, stepSubst_flags cap text heap ctx curr sub s h,
    expandGo_flags cap text heap ctx substs curr s h, ?_⟩
  · rw [writeChars_flags]
    exact h
  · unfold Template.expandStream
    exact expandGo_flags s.flags t.m_text heap ctx t.m_substitutions 0 s rfl

/-- C3 witness: a flag-mutating evaluator and a failing flag-mutating
evaluator both leave the stream at the captured flags `5`. -/
theorem c3_witness :
    (writeChars ⟨[], 5, 0⟩ (sublist ['a', 'b'] 0
        ((⟨0, 2, some (['f'], exEvalMut)⟩ : Substitution Unit).beginOff))).flags = 5
    ∧ (stepSubst 5 ['a', 'b'] (fun _ => 0) () 0
        (⟨0, 2, some (['f'], exEvalMut)⟩ : Substitution Unit) ⟨[], 5, 0⟩).1.flags = 5
    ∧ (expandGo 5 ['a', 'b'] (fun _ => 0) ()
        [⟨0, 2, some (['f'], exEvalMut)⟩, ⟨2, 2, some (['g'], exEvalFail)⟩]
        0 ⟨[], 5, 0⟩).1.flags = 5
    ∧ (Template.expandStream
        (⟨['a', 'b'], [⟨0, 2, some (['g'], exEvalFail)⟩]⟩ : Template Unit)
        (fun _ => 0) () ⟨[], 5, 0⟩).1.flags = StreamState.flags ⟨[], 5, 0⟩ :=
  c3_flags_restored 5 ['a', 'b'] (fun _ => 0) () 0
    ⟨0, 2, some (['f'], exEvalMut)⟩
    [⟨0, 2, some (['f'], exEvalMut)⟩, ⟨2, 2, some (['g'], exEvalFail)⟩]
    ⟨['a', 'b'], [⟨0, 2, some (['g'], exEvalFail)⟩]⟩ ⟨[], 5, 0⟩ rfl

/-- C8: the string-returning `expand` overload is unaffected by the ambient
process locale (the fresh buffer is imbued with the classic locale regardless
of the global locale in force), and expanding the same compiled template with
the same heap and context values yields byte-identical output. -/
theorem c8_deterministic {Ctx : Type} (t : Template Ctx) (heap heap2 : Heap)
    (ctx ctx2 : Ctx) (gl gl2 : Locale) :
    t.expandString gl heap ctx = t.expandString gl2 heap ctx
    ∧ (heap = heap2 → ctx = ctx2 →
        t.expandString gl heap ctx = t.expandString gl2 heap2 ctx2) := by
  have key : ∀ g : Locale, t.expandString g heap ctx
      = ((Template.expandStream t heap ctx ⟨[], defaultFlags, classicLocale⟩).1.out,
         (Template.expandStream t heap ctx ⟨[], defaultFlags, classicLocale⟩).2) :=
    fun g => rfl
  refine ⟨by rw [key gl, key gl2], ?_⟩
  rintro rfl rfl
  rw [key gl, key gl2]

/-- C8 witness: expanding the lenient-parsed `(at)(lb)m(rb)(at)x` template under two
different ambient global locales, with equal heaps and contexts, gives
byte-identical results. -/
theorem c8_witness :
    (Substituter.parse ⟨true, exVars1⟩ exText1 ⟨[], []⟩).2.expandString 3 (fun _ => 0) ()
      = (Substituter.parse ⟨true, exVars1⟩ exText1 ⟨[], []⟩).2.expandString 4 (fun _ => 0) () :=
  (c8_deterministic ((Substituter.parse ⟨true, exVars1⟩ exText1 ⟨[], []⟩).2)
    (fun _ => 0) (fun _ => 0) () () 3 4).2 rfl rfl

/-- C10: the evaluator installed by a value binding (`operator=(T*)`)
dereferences the captured pointer in the ambient heap at each expansion — the
rendered text is the pointee's value at expansion time, written through the
stream's insertion operator — and it ignores every context instance: its
result depends only on the pointed-to object. -/
theorem c10_pointer_binding {Ctx : Type} (p : Nat) (heap heap2 : Heap)
    (ctx ctx2 : Ctx) (s : StreamState) :
    pointerAssign Ctx p heap ctx s = (writeChars s (intToChars s.loc (heap p)), none)
    ∧ pointerAssign Ctx p heap ctx s = pointerAssign Ctx p heap ctx2 s
    ∧ (heap p = heap2 p → pointerAssign Ctx p heap ctx s = pointerAssign Ctx p heap2 ctx2 s) := by
  refine ⟨rfl, rfl, fun h => ?_⟩
  unfold pointerAssign
  rw [h]

/-- C10 witness: two heaps agreeing at the captured address (but nowhere else)
and two distinct contexts produce the same rendered value. -/
theorem c10_witness :
    pointerAssign Unit 0 (fun _ => 7) () ⟨[], 0, classicLocale⟩
      = pointerAssign Unit 0 (fun n => if n = 0 then 7 else 8) () ⟨[], 0, classicLocale⟩ :=
  (c10_pointer_binding 0 (fun _ => 7) (fun n => if n = 0 then 7 else 8)
    () () ⟨[], 0, classicLocale⟩).2.2 rfl

/-- Exposure of the string-returning expansion as a run of the expansion loop
on a fresh classic-locale stream. -/
theorem expandString_out {Ctx : Type} (t : Template Ctx) (gl : Locale)
    (heap : Heap) (ctx : Ctx) :
    (t.expandString gl heap ctx).1
      = (expandGo defaultFlags t.m_text heap ctx t.m_substitutions 0
          ⟨[], defaultFlags, classicLocale⟩).1.out := rfl

/-- C5 counterexample: in the text `(at)(lb)a(at)(at)b(rb)` the two-byte
sequence `(at)(at)` at offsets 3-4 lies inside a braced reference; with the
variable `a(at)(at)b` defined, the template parses to a single resolved
substitution and expands to `X` — an output containing no marker character at
all.  The occurrence of the sequence therefore does not render as one literal
marker: the claim fails for occurrences inside a braced name (it depends on
the surrounding text). -/
theorem c5_counterexample :
    sublist exText5 3 5 = ['@', '@']
    ∧ (Substituter.parse ⟨false, exVars5⟩ exText5 ⟨[], []⟩).1 = true
    ∧ ((Substituter.parse ⟨false, exVars5⟩ exText5 ⟨[], []⟩).2.expandString 0
        (fun _ => 0) ()).1 = ['X']
    ∧ '@' ∉ ((Substituter.parse ⟨false, exVars5⟩ exText5 ⟨[], []⟩).2.expandString 0
        (fun _ => 0) ()).1 := by
  refine ⟨rfl, rfl, rfl, by decide⟩

/-- C5 (amended): each occurrence of `(at)(at)` that the left-to-right scan
reaches as the start of a reference (rather than inside an earlier reference's
span, such as a braced name) is recorded as a self-escape substitution
spanning exactly those two bytes — independent of the leniency setting, which
the scan never consults — and expansion emits exactly one literal marker
character for it. -/
theorem c5_amended {Ctx : Type} (vars : Variables Ctx) (text : List Char)
    (i fuel : Nat) (cap : Flags) (heap : Heap) (ctx : Ctx)
    (rest : List (Substitution Ctx)) (curr : Nat) (s : StreamState)
    (h1 : text[i]? = some '@') (h2 : text[i + 1]? = some '@') :
    parseLoopF vars text (fuel + 1) i
      = ((parseLoopF vars text fuel (i + 2)).1,
         ⟨i, i + 2, none⟩ :: (parseLoopF vars text fuel (i + 2)).2)
    ∧ expandGo cap text heap ctx (⟨i, i + 2, none⟩ :: rest) curr s
      = expandGo cap text heap ctx rest (i + 2)
          ⟨s.out ++ sublist text curr i ++ ['@'], s.flags, s.loc⟩ := by
  have hf := findFrom_at '@' text i h1
  have hlen : i + 1 < text.length := by
    rw [List.getElem?_eq_some] at h2
    exact h2.1
  have hend : ¬(i + 1 = text.length) := by omega
  have hat : charAt text (i + 1) = '@' := charAt_eq text (i + 1) '@' h2
  have hch : ¬(charAt text (i + 1) = '{') := by
    rw [hat]
    decide
  constructor
  · conv_lhs => unfold parseLoopF
    rw [hf]
    simp only [if_neg hend, if_neg hch, if_pos hat]
  · conv_lhs => unfold expandGo
    rw [stepSubst_esc cap text heap ctx curr ⟨i, i + 2, none⟩ s rfl]

/-- C5 witness: the text `(at)(at)` parses to the single self-escape
substitution spanning the two bytes, and its expansion emits one marker. -/
theorem c5_witness :
    (parseLoopF ([] : Variables Unit) ['@', '@'] 2 0
      = ((parseLoopF ([] : Variables Unit) ['@', '@'] 1 2).1,
         ⟨0, 2, none⟩ :: (parseLoopF ([] : Variables Unit) ['@', '@'] 1 2).2))
    ∧ expandGo 0 ['@', '@'] (fun _ => 0) () [⟨0, 2, none⟩] 0 ⟨[], 0, 0⟩
      = expandGo 0 ['@', '@'] (fun _ => 0) () [] 2
          ⟨[] ++ sublist ['@', '@'] 0 0 ++ ['@'], 0, 0⟩ :=
  c5_amended [] ['@', '@'] 0 1 0 (fun _ => 0) () [] 0 ⟨[], 0, 0⟩ (by decide) (by decide)

/-- C1 counterexample: in lenient mode the text `(at)(lb)m(rb)(at)x` with `m`
undefined and `x` bound parses successfully and records no substitution for
the undefined reference, but the rendered output is `(at)(lb)m(rb)7`, not `7`:
the undefined reference's byte span `[0, 4)` is echoed verbatim in the output,
not omitted. -/
theorem c1_counterexample :
    (Substituter.parse ⟨true, exVars1⟩ exText1 ⟨[], []⟩).1 = true
    ∧ Diag.undefinedVariable ['m'] 0 4
        ∈ (parseLoopF exVars1 exText1 (exText1.length + 1) 0).1
    ∧ ((Substituter.parse ⟨true, exVars1⟩ exText1 ⟨[], []⟩).2.expandString 0
        (fun _ => 0) ()).1 = ['@', '{', 'm', '}', '7']
    ∧ ((Substituter.parse ⟨true, exVars1⟩ exText1 ⟨[], []⟩).2.expandString 0
        (fun _ => 0) ()).1 ≠ ['7'] := by
  refine ⟨rfl, by decide, rfl, by decide⟩

/-- C1 (amended): for every template text in which the scan reports an
undefined-variable reference (span `[a, b)`), parsing in lenient mode
succeeds; no substitution is recorded for that reference — every recorded
substitution references a defined variable, and none intersects the span —
and, whenever the recorded evaluators write fixed output on the given heap and
context, the rendered output of the resulting template does NOT omit the
undefined reference's byte span: it contains the span's bytes verbatim, while
still substituting every resolved reference (each recorded evaluator's output
appears in the rendered text). -/
theorem c1_amended {Ctx : Type} (vars : Variables Ctx) (text : List Char)
    (templ0 : Template Ctx) (heap : Heap) (ctx : Ctx) (gl : Locale)
    (name : List Char) (a b : Nat)
    (hdiag : Diag.undefinedVariable name a b
      ∈ (parseLoopF vars text (text.length + 1) 0).1)
    (hconst : ∀ sub ∈ (parseLoopF vars text (text.length + 1) 0).2,
      ∀ nm ev, sub.var_def = some (nm, ev) → ∃ w, ConstOutput ev heap ctx w) :
    (Substituter.parse ⟨true, vars⟩ text templ0).1 = true
    ∧ (∀ sub ∈ (Substituter.parse ⟨true, vars⟩ text templ0).2.m_substitutions,
        ∀ p, sub.var_def = some p → lookupEntry vars p.1 = some p)
    ∧ (∀ sub ∈ (Substituter.parse ⟨true, vars⟩ text templ0).2.m_substitutions,
        sub.endOff ≤ a ∨ b ≤ sub.beginOff)
    ∧ (∃ u v, ((Substituter.parse ⟨true, vars⟩ text templ0).2.expandString gl heap ctx).1
        = u ++ sublist text a b ++ v)
    ∧ (∀ sub ∈ (Substituter.parse ⟨true, vars⟩ text templ0).2.m_substitutions,
        ∀ nm ev w, sub.var_def = some (nm, ev) → ConstOutput ev heap ctx w →
          ∃ u v, ((Substituter.parse ⟨true, vars⟩ text templ0).2.expandString gl heap ctx).1
            = u ++ w ++ v) := by
  have hp := parse_ok (⟨true, vars⟩ : Substituter Ctx) text templ0 (Or.inr rfl)
  have hinv := parseLoopF_inv vars text (text.length + 1) 0
  have hd := hinv.2.2 name a b hdiag
  have hms : (Substituter.parse ⟨true, vars⟩ text templ0).2.m_substitutions
      = (parseLoopF vars text (text.length + 1) 0).2 := by
    rw [hp]
  have he : ((Substituter.parse ⟨true, vars⟩ text templ0).2.expandString gl heap ctx).1
      = (expandGo defaultFlags text heap ctx (parseLoopF vars text (text.length + 1) 0).2 0
          ⟨[], defaultFlags, classicLocale⟩).1.out := by
    rw [hp]
    rfl
  refine ⟨by rw [hp], ?_, ?_, ?_, ?_⟩
  · rw [hms]
    intro sub hsub p hp2
    exact (hinv.1 sub hsub).2.2.2 p hp2
  · rw [hms]
    exact hd.2.2.2
  · rw [he]
    exact expandGo_contains_gap defaultFlags text heap ctx
      (parseLoopF vars text (text.length + 1) 0).2 0 ⟨[], defaultFlags, classicLocale⟩ a b
      (Nat.zero_le a) (by omega) hd.2.2.1
      (fun sub hsub => ⟨(hinv.1 sub hsub).1, (hinv.1 sub hsub).2.1, (hinv.1 sub hsub).2.2.1⟩)
      hinv.2.1 hd.2.2.2 hconst
  · rw [hms, he]
    intro sub hsub nm ev w hv hcw
    exact expandGo_contains_eval defaultFlags text heap ctx
      (parseLoopF vars text (text.length + 1) 0).2 0 ⟨[], defaultFlags, classicLocale⟩
      sub nm ev w hsub hv hcw hconst

/-- C1 witness: the amended claim at the concrete lenient scenario
`(at)(lb)m(rb)(at)x` with `m` undefined (span `[0, 4)`) and `x` bound to a
constant-output evaluator. -/
theorem c1_witness :
    (Substituter.parse ⟨true, exVars1⟩ exText1 ⟨[], []⟩).1 = true
    ∧ (∀ sub ∈ (Substituter.parse ⟨true, exVars1⟩ exText1 ⟨[], []⟩).2.m_substitutions,
        ∀ p, sub.var_def = some p → lookupEntry exVars1 p.1 = some p)
    ∧ (∀ sub ∈ (Substituter.parse ⟨true, exVars1⟩ exText1 ⟨[], []⟩).2.m_substitutions,
        sub.endOff ≤ 0 ∨ 4 ≤ sub.beginOff)
    ∧ (∃ u v, ((Substituter.parse ⟨true, exVars1⟩ exText1 ⟨[], []⟩).2.expandString 0
        (fun _ => 0) ()).1 = u ++ sublist exText1 0 4 ++ v)
    ∧ (∀ sub ∈ (Substituter.parse ⟨true, exVars1⟩ exText1 ⟨[], []⟩).2.m_substitutions,
        ∀ nm ev w, sub.var_def = some (nm, ev) → ConstOutput ev (fun _ => 0) () w →
          ∃ u v, ((Substituter.parse ⟨true, exVars1⟩ exText1 ⟨[], []⟩).2.expandString 0
            (fun _ => 0) ()).1 = u ++ w ++ v) :=
  c1_amended exVars1 exText1 ⟨[], []⟩ (fun _ => 0) () 0 ['m'] 0 4 (by decide)
    (by
      intro sub hsub nm ev hv
      have hsubs : (parseLoopF exVars1 exText1 (exText1.length + 1) 0).2
          = [⟨4, 6, some (['x'], exEval7)⟩] := rfl
      rw [hsubs] at hsub
      rcases List.mem_singleton.mp hsub with rfl
      dsimp only at hv
      injection hv with hv2
      rw [Prod.mk.injEq] at hv2
      obtain ⟨h1, h2⟩ := hv2
      subst h2
      exact ⟨['7'], fun s => rfl⟩)

/-- Sanity check: the usage example in the header documentation of
substitute.hpp (context types `CtxA(y)`, `CtxB(x)`, bindings for `x` and `y`,
template `<(at)x:(at)y>`, three expansions with `y += 1, x += 2` between
them) renders `<0:0>`, `<2:1>`, `<4:2>`. -/
theorem expand_doc_example :
    ((Substituter.parse ⟨false, [(['x'], fieldAssign (Int × Int) (fun c => c.2)),
        (['y'], fieldAssign (Int × Int) (fun c => c.1))]⟩
      ['<', '@', 'x', ':', '@', 'y', '>'] ⟨[], []⟩).1 = true)
    ∧ (((Substituter.parse ⟨false, [(['x'], fieldAssign (Int × Int) (fun c => c.2)),
        (['y'], fieldAssign (Int × Int) (fun c => c.1))]⟩
      ['<', '@', 'x', ':', '@', 'y', '>'] ⟨[], []⟩).2.expandString 0 (fun _ => 0) (0, 0)).1
        = ['<', '0', ':', '0', '>'])
    ∧ (((Substituter.parse ⟨false, [(['x'], fieldAssign (Int × Int) (fun c => c.2)),
        (['y'], fieldAssign (Int × Int) (fun c => c.1))]⟩
      ['<', '@', 'x', ':', '@', 'y', '>'] ⟨[], []⟩).2.expandString 0 (fun _ => 0) (1, 2)).1
        = ['<', '2', ':', '1', '>'])
    ∧ (((Substituter.parse ⟨false, [(['x'], fieldAssign (Int × Int) (fun c => c.2)),
        (['y'], fieldAssign (Int × Int) (fun c => c.1))]⟩
      ['<', '@', 'x', ':', '@', 'y', '>'] ⟨[], []⟩).2.expandString 0 (fun _ => 0) (2, 4)).1
        = ['<', '4', ':', '2', '>']) := by decide

/-! ### Fuel irrelevance

The fuel argument of `parseLoopF` is only a termination device for the C++
`for (;;)` loop: any two fuels that cover the remaining text compute the same
diagnostics and substitutions, so `Substituter.parse`'s choice of
`text.length + 1` is canonical. -/

theorem findFromAux_ge (c : Char) :
    ∀ (xs : List Char) (k : Nat), xs.length ≤ k → findFromAux c xs k = none
  | [], _, _ => rfl
  | x :: xs, 0, h => by simp at h
  | _ :: xs, k + 1, h => by
    simp only [findFromAux]
    rw [findFromAux_ge c xs k (by simp only [List.length_cons] at h; omega)]
    rfl

theorem findFrom_ge (c : Char) (text : List Char) (curr : Nat)
    (h : text.length ≤ curr) : findFrom c text curr = none :=
  findFromAux_ge c text curr h

theorem parseLoopF_fuel {Ctx : Type} (vars : Variables Ctx) (text : List Char) :
    ∀ (fuel fuel' curr : Nat), text.length ≤ curr + fuel → text.length ≤ curr + fuel' →
      parseLoopF vars text fuel curr = parseLoopF vars text fuel' curr
  | 0, 0, curr, _, _ => rfl
  | 0, fuel' + 1, curr, h, _ => by
    have hn : findFrom '@' text curr = none := findFrom_ge '@' text curr (by omega)
    have e2 : parseLoopF vars text (fuel' + 1) curr = ([], []) := by
      conv_lhs => unfold parseLoopF
      rw [hn]
    rw [e2]
    rfl
  | fuel + 1, 0, curr, _, h' => by
    have hn : findFrom '@' text curr = none := findFrom_ge '@' text curr (by omega)
    have e1 : parseLoopF vars text (fuel + 1) curr = ([], []) := by
      conv_lhs => unfold parseLoopF
      rw [hn]
    rw [e1]
    rfl
  | fuel + 1, fuel' + 1, curr, h, h' => by
    cases hf : findFrom '@' text curr with
    | none =>
      have e1 : parseLoopF vars text (fuel + 1) curr = ([], []) := by
        conv_lhs => unfold parseLoopF
        rw [hf]
      have e2 : parseLoopF vars text (fuel' + 1) curr = ([], []) := by
        conv_lhs => unfold parseLoopF
        rw [hf]
      rw [e1, e2]
    | some i =>
      obtain ⟨hci, hil⟩ := findFrom_bounds '@' text curr i hf
      by_cases hend : i + 1 = text.length
      · have e1 : parseLoopF vars text (fuel + 1) curr
            = ([Diag.unterminatedMarker i], []) := by
          conv_lhs => unfold parseLoopF
          rw [hf]
          simp only [if_pos hend]
        have e2 : parseLoopF vars text (fuel' + 1) curr
            = ([Diag.unterminatedMarker i], []) := by
          conv_lhs => unfold parseLoopF
          rw [hf]
          simp only [if_pos hend]
        rw [e1, e2]
      · by_cases hch : charAt text (i + 1) = '{'
        · cases hg : findFrom '}' text (i + 2) with
          | none =>
            have IH := parseLoopF_fuel vars text fuel fuel' (i + 2) (by omega) (by omega)
            have e1 : parseLoopF vars text (fuel + 1) curr
                = (Diag.unterminatedBrace i :: (parseLoopF vars text fuel (i + 2)).1,
                   (parseLoopF vars text fuel (i + 2)).2) := by
              conv_lhs => unfold parseLoopF
              rw [hf]
              simp only [if_neg hend, hch, eq_self_iff_true, ite_true, hg]
            have e2 : parseLoopF vars text (fuel' + 1) curr
                = (Diag.unterminatedBrace i :: (parseLoopF vars text fuel' (i + 2)).1,
                   (parseLoopF vars text fuel' (i + 2)).2) := by
              conv_lhs => unfold parseLoopF
              rw [hf]
              simp only [if_neg hend, hch, eq_self_iff_true, ite_true, hg]
            rw [e1, e2, IH]
          | some j =>
            obtain ⟨hcj, hjl⟩ := findFrom_bounds '}' text (i + 2) j hg
            have IH := parseLoopF_fuel vars text fuel fuel' (j + 1) (by omega) (by omega)
            cases hk : lookupEntry vars (sublist text (i + 2) j) with
            | none =>
              have e1 : parseLoopF vars text (fuel + 1) curr
                  = (Diag.undefinedVariable (sublist text (i + 2) j) i (j + 1)
                       :: (parseLoopF vars text fuel (j + 1)).1,
                     (parseLoopF vars text fuel (j + 1)).2) := by
                conv_lhs => unfold parseLoopF
                rw [hf]
                simp only [if_neg hend, hch, eq_self_iff_true, ite_true, hg, hk]
              have e2 : parseLoopF vars text (fuel' + 1) curr
                  = (Diag.undefinedVariable (sublist text (i + 2) j) i (j + 1)
                       :: (parseLoopF vars text fuel' (j + 1)).1,
                     (parseLoopF vars text fuel' (j + 1)).2) := by
                conv_lhs => unfold parseLoopF
                rw [hf]
                simp only [if_neg hend, hch, eq_self_iff_true, ite_true, hg, hk]
              rw [e1, e2, IH]
            | some entry =>
              have e1 : parseLoopF vars text (fuel + 1) curr
                  = ((parseLoopF vars text fuel (j + 1)).1,
                     ⟨i, j + 1, some entry⟩ :: (parseLoopF vars text fuel (j + 1)).2) := by
                conv_lhs => unfold parseLoopF
                rw [hf]
                simp only [if_neg hend, hch, eq_self_iff_true, ite_true, hg, hk]
              have e2 : parseLoopF vars text (fuel' + 1) curr
                  = ((parseLoopF vars text fuel' (j + 1)).1,
                     ⟨i, j + 1, some entry⟩ :: (parseLoopF vars text fuel' (j + 1)).2) := by
                conv_lhs => unfold parseLoopF
                rw [hf]
                simp only [if_neg hend, hch, eq_self_iff_true, ite_true, hg, hk]
              rw [e1, e2, IH]
        · by_cases hat : charAt text (i + 1) = '@'
          · have IH := parseLoopF_fuel vars text fuel fuel' (i + 2) (by omega) (by omega)
            have e1 : parseLoopF vars text (fuel + 1) curr
                = ((parseLoopF vars text fuel (i + 2)).1,
                   ⟨i, i + 2, none⟩ :: (parseLoopF vars text fuel (i + 2)).2) := by
              conv_lhs => unfold parseLoopF
              rw [hf]
              simp only [if_neg hend, if_neg hch, if_pos hat]
            have e2 : parseLoopF vars text (fuel' + 1) curr
                = ((parseLoopF vars text fuel' (i + 2)).1,
                   ⟨i, i + 2, none⟩ :: (parseLoopF vars text fuel' (i + 2)).2) := by
              conv_lhs => unfold parseLoopF
              rw [hf]
              simp only [if_neg hend, if_neg hch, if_pos hat]
            rw [e1, e2, IH]
          · have IH := parseLoopF_fuel vars text fuel fuel' (i + 2) (by omega) (by omega)
            cases hk : lookupEntry vars (sublist text (i + 1) (i + 2)) with
            | none =>
              have e1 : parseLoopF vars text (fuel + 1) curr
                  = (Diag.undefinedVariable (sublist text (i + 1) (i + 2)) i (i + 2)
                       :: (parseLoopF vars text fuel (i + 2)).1,
                     (parseLoopF vars text fuel (i + 2)).2) := by
                conv_lhs => unfold parseLoopF
                rw [hf]
                simp only [if_neg hend, if_neg hch, if_neg hat, hk]
              have e2 : parseLoopF vars text (fuel' + 1) curr
                  = (Diag.undefinedVariable (sublist text (i + 1) (i + 2)) i (i + 2)
                       :: (parseLoopF vars text fuel' (i + 2)).1,
                     (parseLoopF vars text fuel' (i + 2)).2) := by
                conv_lhs => unfold parseLoopF
                rw [hf]
                simp only [if_neg hend, if_neg hch, if_neg hat, hk]
              rw [e1, e2, IH]
            | some entry =>
              have e1 : parseLoopF vars text (fuel + 1) curr
                  = ((parseLoopF vars text fuel (i + 2)).1,
                     ⟨i, i + 2, some entry⟩ :: (parseLoopF vars text fuel (i + 2)).2) := by
                conv_lhs => unfold parseLoopF
                rw [hf]
                simp only [if_neg hend, if_neg hch, if_neg hat, hk]
              have e2 : parseLoopF vars text (fuel' + 1) curr
                  = ((parseLoopF vars text fuel' (i + 2)).1,
                     ⟨i, i + 2, some entry⟩ :: (parseLoopF vars text fuel' (i + 2)).2) := by
                conv_lhs => unfold parseLoopF
                rw [hf]
                simp only [if_neg hend, if_neg hch, if_neg hat, hk]
              rw [e1, e2, IH]

/-- The fuel `Substituter.parse` supplies is canonical: adding any amount of
extra fuel leaves the parse result unchanged. -/
theorem parseLoopF_fuel_sufficient {Ctx : Type} (vars : Variables Ctx)
    (text : List Char) (extra : Nat) :
    parseLoopF vars text (text.length + 1) 0
      = parseLoopF vars text (text.length + 1 + extra) 0 :=
  parseLoopF_fuel vars text (text.length + 1) (text.length + 1 + extra) 0
    (by omega) (by omega)

end Realm
